import Mathlib

/-!
# Chunked upload server (`src/code/server/index.js`)

A shallow embedding of the three request handlers `/upload`, `/merge` and
`/verify` over an explicit model of the upload directory.

Conventions of the embedding.

* The state is the content of the upload directory `UPLOAD_DIR`, two levels
  deep: its entries are regular files or directories, and the entries of such
  a directory are regular files, kept in the order `readdir` lists them (an
  order the operating system chooses).  The upload directory itself exists.
* `path.resolve(UPLOAD_DIR, s)` and `path.join(UPLOAD_DIR, s)` are modelled
  for POSIX paths: `s` is cut at `/`, empty and `.` segments are dropped and
  `..` climbs one level.  The result is the upload directory itself, an entry
  of it, an entry of one of its directories, a deeper path, a path with a
  segment no file system call accepts (a NUL character, or more than 255
  bytes), or a path outside the upload directory.
* A handler returns the JSON response it sends, or `none` when it sends none
  (an fs call rejects or a stream fails), together with the resulting
  directory.
* The embedding gives no account of four situations.  A path outside the
  upload directory (an absolute name, or one climbing above `UPLOAD_DIR`) is
  taken as absent.  In the three others the handler is written as sending no
  response and leaving the state as it is: the upload directory itself used
  as staging directory by `/merge` or `/verify`; the creation of a directory
  below the first level; a write stream that cannot open the final artifact.
  No statement below depends on what a handler answers in these situations.
* Failures of the file system itself (disk full, file size limit,
  permissions) are not modelled.
* Each handler is one atomic step.  Inside `/merge` every write stream is
  opened before any chunk is copied and the copies are applied in the order
  of the sorted listing; other interleavings of the concurrent copies are
  outside the embedding.  `fs.createWriteStream` refuses a `start` that is
  not a safe integer; the handler then sends nothing, the streams already
  opened leave an empty artifact and no chunk is copied or deleted.  The
  `end` option is not used by write streams.
* `Array.prototype.sort` is a stable sort.  Where the comparator is not a
  consistent order (some but not all results `NaN`) the resulting order
  depends on the engine; the statements below use the sort only where the
  comparator is consistent.
* JavaScript numbers are IEEE doubles.  Naturals up to `2^53` are exact;
  `toDouble` rounds larger ones.  `stringToNumber` covers the empty string
  and unsigned decimal digit strings; other numeric literal forms (sign,
  fraction, exponent, radix prefixes, surrounding blanks) are mapped to `NaN`
  and no statement below relies on them.
* JavaScript strings are sequences of UTF-16 code units; `extractExt` works
  on code units, and a surrogate left alone by the slice reaches the file
  system as U+FFFD.
-/

namespace FileUpload

/-! ## Strings -/

/-- The UTF-16 code units of a string. -/
def toUnits : List Char → List Nat
  | [] => []
  | c :: cs =>
    (if c.toNat < 0x10000 then [c.toNat]
      else [0xD800 + (c.toNat - 0x10000) / 0x400, 0xDC00 + (c.toNat - 0x10000) % 0x400])
      ++ toUnits cs

/-- The character a single code unit stands for; a surrogate on its own is
replaced by U+FFFD. -/
def unitChar (u : Nat) : Char :=
  if 0xD800 ≤ u ∧ u ≤ 0xDFFF then Char.ofNat 0xFFFD else Char.ofNat u

/-- The characters of a sequence of UTF-16 code units, as a path reaches the
file system. -/
def fromUnits : List Nat → List Char
  | [] => []
  | [u] => [unitChar u]
  | u :: v :: rest =>
    if 0xD800 ≤ u ∧ u ≤ 0xDBFF ∧ 0xDC00 ≤ v ∧ v ≤ 0xDFFF then
      Char.ofNat (0x10000 + (u - 0xD800) * 0x400 + (v - 0xDC00)) :: fromUnits rest
    else unitChar u :: fromUnits (v :: rest)

/-- `String.prototype.lastIndexOf` for a single code unit: the position of the
last occurrence, `-1` when there is none. -/
def lastIndexOf (c : Nat) : List Nat → Int
  | [] => -1
  | x :: xs =>
    let r := lastIndexOf c xs
    if 0 ≤ r then r + 1 else if x = c then 0 else -1

/-- The clamping of a relative index done by `String.prototype.slice`. -/
def clampIndex (len : Nat) (i : Int) : Nat :=
  if i < 0 then (len + i).toNat else min i.toNat len

/-- `String.prototype.slice(start, stop)` on the list of code units. -/
def slice (s : List Nat) (start stop : Int) : List Nat :=
  let a := clampIndex s.length start
  let b := clampIndex s.length stop
  (s.drop a).take (b - a)

/-- `extractExt` of the source:
`filename.slice(filename.lastIndexOf('.'), filename.length)`. -/
def extractExt (filename : String) : String :=
  let units := toUnits filename.data
  ⟨fromUnits (slice units (lastIndexOf 46 units) units.length)⟩

/-- `s.split('-')` on the list of characters; the result is never empty. -/
def splitDash : List Char → List (List Char)
  | [] => [[]]
  | c :: cs =>
    match splitDash cs with
    | [] => if c = '-' then [[], []] else [[c]]
    | f :: fs => if c = '-' then [] :: f :: fs else (c :: f) :: fs

/-! ## Numbers -/

/-- The JavaScript numbers the handlers compute with: `NaN`, the infinities
and the integers. -/
inductive JSNum where
  | nan : JSNum
  | negInf : JSNum
  | fin (z : Int) : JSNum
  | posInf : JSNum
  deriving DecidableEq, Repr

/-- Number of halvings that bring `n` below `2`, with `fuel` as bound. -/
def floorLog2Fuel : Nat → Nat → Nat
  | 0, _ => 0
  | fuel + 1, n => if n < 2 then 0 else floorLog2Fuel fuel (n / 2) + 1

/-- Position of the leading binary digit of `n`. -/
def floorLog2 (n : Nat) : Nat := floorLog2Fuel n n

/-- Rounding of a natural number to the nearest double (ties to even);
exact up to `2^53`, `Infinity` from `2^1024` on. -/
def toDouble (n : Nat) : JSNum :=
  if n ≤ 2 ^ 53 then .fin n
  else
    let e := floorLog2 n - 52
    let q := n / 2 ^ e
    let r := n % 2 ^ e
    let h := 2 ^ (e - 1)
    let q' := if h < r ∨ (r = h ∧ q % 2 = 1) then q + 1 else q
    -- `q' * 2 ^ e` reaches `2 ^ 1024` exactly in these cases
    if 971 < e ∨ (e = 971 ∧ 2 ^ 53 ≤ q') then .posInf else .fin (q' * 2 ^ e)

/-- Value of a string of decimal digits. -/
def decimalValue (ds : List Char) : Nat :=
  ds.foldl (fun acc c => 10 * acc + (c.toNat - 48)) 0

/-- `ToNumber` on a string, for the empty string and unsigned decimal digit
strings; `NaN` otherwise. -/
def stringToNumber (s : List Char) : JSNum :=
  if s.all Char.isDigit then toDouble (decimalValue s) else .nan

/-- `ToNumber` on the value of `xs[1]`: `undefined` gives `NaN`. -/
def toNumber : Option (List Char) → JSNum
  | none => .nan
  | some s => stringToNumber s

/-- Subtraction `x - y` of JavaScript numbers.  On two finite operands the
exact difference is returned; its sign is the sign of the double result. -/
def JSNum.sub : JSNum → JSNum → JSNum
  | .nan, _ => .nan
  | _, .nan => .nan
  | .posInf, .posInf => .nan
  | .negInf, .negInf => .nan
  | .posInf, _ => .posInf
  | _, .posInf => .negInf
  | .negInf, _ => .negInf
  | _, .negInf => .posInf
  | .fin a, .fin b => .fin (a - b)

/-- Whether a comparator result is `> 0`; `NaN` counts as `0`. -/
def JSNum.isPos : JSNum → Bool
  | .posInf => true
  | .fin z => decide (0 < z)
  | _ => false

/-- The comparator of `/merge`: `a.split('-')[1] - b.split('-')[1]`. -/
def comparator (a b : String) : JSNum :=
  (toNumber ((splitDash a.data).get? 1)).sub (toNumber ((splitDash b.data).get? 1))

/-- Insertion of `a` in front of a sorted list: `a` passes every element that
the comparator puts strictly before it. -/
def insertSorted (cmp : String → String → JSNum) (a : String) : List String → List String
  | [] => [a]
  | b :: l => if (cmp a b).isPos then b :: insertSorted cmp a l else a :: b :: l

/-- `Array.prototype.sort(cmp)`: a stable sort; elements the comparator does
not separate keep their order. -/
def jsSort (cmp : String → String → JSNum) : List String → List String
  | [] => []
  | a :: l => insertSorted cmp a (jsSort cmp l)

/-- The sort step of `/merge`. -/
def sortChunks (chunkPaths : List String) : List String :=
  jsSort comparator chunkPaths

/-! ## Paths -/

/-- The segments of a path: the pieces between `/` characters. -/
def splitSlash : List Char → List (List Char)
  | [] => [[]]
  | c :: cs =>
    match splitSlash cs with
    | [] => if c = '/' then [[], []] else [[c]]
    | f :: fs => if c = '/' then [] :: f :: fs else (c :: f) :: fs

/-- Normalisation of path segments onto a position below the upload
directory.  A position is the list of segments leading to it, innermost
first; `none` is a position outside the upload directory. -/
def walk : Option (List String) → List (List Char) → Option (List String)
  | pos, [] => pos
  | none, _ :: _ => none
  | some pos, seg :: rest =>
    if seg = [] ∨ seg = ['.'] then walk (some pos) rest
    else if seg = ['.', '.'] then
      match pos with
      | [] => none
      | _ :: up => walk (some up) rest
    else walk (some (String.mk seg :: pos)) rest

/-- `path.resolve(base, s)` for a position `base`: an absolute `s` leaves the
upload directory. -/
def resolveFrom (base : Option (List String)) (s : String) : Option (List String) :=
  if s.data.head? = some '/' then none else walk base (splitSlash s.data)

/-- Number of bytes of the UTF-8 encoding of a character. -/
def utf8Bytes (c : Char) : Nat :=
  if c.toNat < 0x80 then 1 else if c.toNat < 0x800 then 2
  else if c.toNat < 0x10000 then 3 else 4

/-- A segment the file system accepts as a name: no NUL character and at most
255 bytes. -/
def validSegment (seg : String) : Bool :=
  seg.data.all (fun c => c.toNat ≠ 0) && decide ((seg.data.map utf8Bytes).sum ≤ 255)

/-- What a path designates. -/
inductive Target where
  | root : Target
  | entry (name : String) : Target
  | inner (dir name : String) : Target
  | deeper : Target
  | invalid : Target
  | outside : Target
  deriving DecidableEq, Repr

/-- The target at a position. -/
def classify : Option (List String) → Target
  | none => .outside
  | some pos =>
    if pos.all validSegment then
      match pos with
      | [] => .root
      | [n] => .entry n
      | [n, d] => .inner d n
      | _ => .deeper
    else .invalid

/-- The target of `path.resolve(UPLOAD_DIR, s)`. -/
def resolve (s : String) : Target :=
  classify (resolveFrom (some []) s)

/-- The target of `path.resolve(path.resolve(UPLOAD_DIR, base), s)`. -/
def resolveUnder (base s : String) : Target :=
  classify (resolveFrom (resolveFrom (some []) base) s)

/-- The target of `path.join(UPLOAD_DIR, s)`: a leading `/` of `s` is an
ordinary separator. -/
def joinPath (s : String) : Target :=
  classify (walk (some []) (splitSlash s.data))

/-! ## The upload directory -/

/-- One byte. -/
abbrev Byte := Fin 256

/-- Content of a regular file. -/
abbrev Bytes := List Byte

/-- An entry of the upload directory: a regular file, or a directory whose
entries (all regular files) are kept in the order `readdir` lists them. -/
inductive Node where
  | file (content : Bytes) : Node
  | dir (entries : List (String × Bytes)) : Node
  deriving DecidableEq, Repr

/-- The upload directory `UPLOAD_DIR`: what each entry name holds. -/
abbrev FS := String → Option Node

/-- The upload directory with no entry. -/
def emptyFS : FS := fun _ => none

/-- The upload directory with entry `p` replaced (`none` removes it). -/
def setEntry (fs : FS) (p : String) (n : Option Node) : FS :=
  fun q => if q = p then n else fs q

/-- Whether something exists at a target. -/
def existsAt (fs : FS) : Target → Bool
  | .root => true
  | .entry n => (fs n).isSome
  | .inner d n =>
    match fs d with
    | some (.dir es) => es.any (fun e => e.1 = n)
    | _ => false
  | _ => false

/-- `fse.existsSync(path.resolve(UPLOAD_DIR, p))`: true for files and
directories alike. -/
def existsSync (fs : FS) (p : String) : Bool := existsAt fs (resolve p)

/-- `fse.mkdir` at a target where nothing exists; `none` when the call
rejects. -/
def mkdirAt (fs : FS) : Target → Option FS
  | .entry n => if (fs n).isSome then none else some (setEntry fs n (some (.dir [])))
  | _ => none

/-- `fse.move(oldPath, dest)` of an uploaded file with content `data`, without
the overwrite option: the parent directory of `dest` is created when missing,
and the call rejects when something exists at `dest`.  The new entry is put
last in the listing; where a real `readdir` lists it is up to the file system
and no statement depends on it. -/
def moveTo (fs : FS) (dest : Target) (data : Bytes) : Option FS :=
  match dest with
  | .entry n => if (fs n).isSome then none else some (setEntry fs n (some (.file data)))
  | .inner d n =>
    match fs d with
    | none => some (setEntry fs d (some (.dir [(n, data)])))
    | some (.dir es) =>
      if es.any (fun e => e.1 = n) then none
      else some (setEntry fs d (some (.dir (es ++ [(n, data)]))))
    | some (.file _) => none
  | _ => none

/-- `fse.readdir` at a target where something exists: the names in listing
order, `none` when the call rejects because the target is not a directory. -/
def readdirAt (fs : FS) : Target → Option (List String)
  | .entry d =>
    match fs d with
    | some (.dir es) => some (es.map Prod.fst)
    | _ => none
  | _ => none

/-- The file written by the write streams of `/merge` at a target where
nothing exists; `none` when the streams cannot open it. -/
def writeFile (fs : FS) (dest : Target) (content : Bytes) : Option FS :=
  match dest with
  | .entry n => some (setEntry fs n (some (.file content)))
  | .inner d n =>
    match fs d with
    | some (.dir es) => some (setEntry fs d (some (.dir (es ++ [(n, content)]))))
    | _ => none
  | _ => none

/-- Content read from the chunk file `name` of a directory. -/
def readChunk (es : List (String × Bytes)) (name : String) : Bytes :=
  match es.find? (fun e => e.1 = name) with
  | some e => e.2
  | none => []

/-- Positional write of `data` at byte offset `start`; a gap past the
current end of the file reads as zero bytes. -/
def writeAt (f : Bytes) (start : Nat) (data : Bytes) : Bytes :=
  f.take start ++ List.replicate (start - f.length) 0 ++ data
    ++ f.drop (start + data.length)

/-- `Number.MAX_SAFE_INTEGER`, the largest `start` a write stream accepts. -/
def maxSafeInteger : Nat := 2 ^ 53 - 1

/-! ## Responses -/

/-- The `data` object of a `/verify` response. -/
structure VerifyData where
  shouldUpload : Bool
  existChunks : Option (List String)
  deriving DecidableEq, Repr

/-- A JSON response: HTTP status and the fields of the body. -/
structure Response where
  status : Nat
  ok : Bool
  msg : Option String
  data : Option VerifyData
  deriving DecidableEq, Repr

/-- The parsed multipart form of `/upload`. -/
structure UploadForm where
  fileHash : String
  chunkHash : String
  chunk : Bytes
  deriving DecidableEq, Repr

/-! ## Handlers -/

/-- Handler of `POST /upload`; `none` as form is a multipart parse error. -/
def upload (fs : FS) : Option UploadForm → Option Response × FS
  | none => (some ⟨401, false, some "上传失败，请重新上传", none⟩, fs)
  | some form =>
    let chunkPath := resolve form.fileHash
    match (if !existsAt fs chunkPath then mkdirAt fs chunkPath else some fs) with
    | none => (none, fs)
    | some fs1 =>
      match moveTo fs1 (resolveUnder form.fileHash form.chunkHash) form.chunk with
      | none => (none, fs1)
      | some fs2 => (some ⟨200, true, some "上传成功", none⟩, fs2)

/-- The merge operation of `/merge` (from the sort to `fse.remove`), on the
entries `es` of the staging directory `chunkDir`. -/
def mergeChunks (fs : FS) (filePath : Target) (chunkDir : String)
    (es : List (String × Bytes)) (size : Nat) : Option Response × FS :=
  let chunkPaths := sortChunks (es.map Prod.fst)
  let list := chunkPaths.enum
  -- a write stream whose `start` is not a safe integer is refused
  let copied := list.filter (fun p => decide (p.1 * size ≤ maxSafeInteger))
  let refused := list.filter (fun p => !decide (p.1 * size ≤ maxSafeInteger))
  let content := copied.foldl (fun f p => writeAt f (p.1 * size) (readChunk es p.2)) []
  if refused.isEmpty then
    match (if copied.isEmpty then some fs else writeFile fs filePath content) with
    | none => (none, fs)
    | some fs1 => (some ⟨200, true, some "合并成功", none⟩, setEntry fs1 chunkDir none)
  else
    match (if copied.isEmpty then some fs else writeFile fs filePath []) with
    | none => (none, fs)
    | some fs1 => (none, fs1)

/-- Handler of `POST /merge` with body `{fileHash, fileName, size}`. -/
def merge (fs : FS) (fileHash fileName : String) (size : Nat) : Option Response × FS :=
  let filePath := fileHash ++ extractExt fileName
  if existsSync fs filePath then (some ⟨200, true, some "合并成功", none⟩, fs)
  else
    let chunkDir := fileHash
    if !existsSync fs chunkDir then (some ⟨401, false, some "合并失败，请重新上传！", none⟩, fs)
    else
      match resolve chunkDir with
      | .entry d =>
        match fs d with
        | some (.dir es) => mergeChunks fs (resolve filePath) d es size
        | _ => (none, fs)
      | _ => (none, fs)

/-- Handler of `POST /verify` with body `{fileHash, fileName}`. -/
def verify (fs : FS) (fileHash fileName : String) : Option Response × FS :=
  let filePath := fileHash ++ extractExt fileName
  let chunkDir := joinPath fileHash
  match (if existsAt fs chunkDir then readdirAt fs chunkDir else some []) with
  | none => (none, fs)
  | some chunkPaths =>
    if existsSync fs filePath then
      (some ⟨200, true, none, some ⟨false, none⟩⟩, fs)
    else
      (some ⟨200, true, none, some ⟨true, some chunkPaths⟩⟩, fs)

/-! ## Notions used by the statements -/

/-- The success response of `/merge`. -/
def mergeOk : Response := ⟨200, true, some "合并成功", none⟩

/-- The failure response of `/merge` when there is nothing to merge. -/
def mergeNotFound : Response := ⟨401, false, some "合并失败，请重新上传！", none⟩

/-- The success response of `/upload`. -/
def uploadOk : Response := ⟨200, true, some "上传成功", none⟩

/-- Names of the chunk blobs held by the staging area of `fileHash`, in
listing order; empty when there is no staging directory. -/
def stagedChunks (fs : FS) (fileHash : String) : List String :=
  match resolve fileHash with
  | .entry d =>
    match fs d with
    | some (.dir es) => es.map Prod.fst
    | _ => []
  | _ => []

/-- The path `p` designates a regular file. -/
def isFile (fs : FS) (p : String) : Bool :=
  match resolve p with
  | .entry n =>
    match fs n with
    | some (.file _) => true
    | _ => false
  | .inner d n =>
    match fs d with
    | some (.dir es) => es.any (fun e => e.1 = n)
    | _ => false
  | _ => false

/-- The staging area of `fileHash` holds at least one pending chunk. -/
def hasPending (fs : FS) (fileHash : String) : Bool :=
  match resolve fileHash with
  | .entry d =>
    match fs d with
    | some (.dir (_ :: _)) => true
    | _ => false
  | _ => false

/-- The name `s` is a file name: it designates the entry `s` of the directory
it is resolved in. -/
def isEntryName (s : String) : Bool := decide (resolve s = .entry s)

/-- A request to the server. -/
inductive Op where
  | storeChunk (fileHash chunkHash : String) (data : Bytes) : Op
  | checkStatus (fileHash fileName : String) : Op
  | mergeFile (fileHash fileName : String) (size : Nat) : Op
  deriving DecidableEq, Repr

/-- One request handled as an atomic step: the response and the new state. -/
def step (fs : FS) : Op → Option Response × FS
  | .storeChunk fileHash chunkHash data => upload fs (some ⟨fileHash, chunkHash, data⟩)
  | .checkStatus fileHash fileName => verify fs fileHash fileName
  | .mergeFile fileHash fileName size => merge fs fileHash fileName size

/-- Storing the chunks `cs` one after the other under `fileHash`: the
responses, in order, and the final state. -/
def uploadAll (fs : FS) (fileHash : String) : List (String × Bytes) → List (Option Response) × FS
  | [] => ([], fs)
  | c :: cs =>
    let r := upload fs (some ⟨fileHash, c.1, c.2⟩)
    let rest := uploadAll r.2 fileHash cs
    (r.1 :: rest.1, rest.2)

/-- Not both: a staging area of `fileHash` with a pending chunk and the final
artifact `fileHash + extractExt(fileName)`. -/
def exclusive (fs : FS) (fileHash fileName : String) : Bool :=
  !(hasPending fs fileHash && isFile fs (fileHash ++ extractExt fileName))

/-- Responses and final state of a sequence of requests. -/
def runAll (fs : FS) : List Op → List (Option Response) × FS
  | [] => ([], fs)
  | op :: ops =>
    let r := step fs op
    let rest := runAll r.2 ops
    (r.1 :: rest.1, rest.2)

/-- The requests that respect the file `fileHash`, `fileName` in state `fs`.
A store names a staging directory of the upload directory and a chunk inside
it, and is not made for `fileHash` while its final artifact exists.  A merge
names a staging directory of the upload directory and does not write the
artifact of `fileHash` on behalf of another file. -/
def allowed (fileHash fileName : String) (fs : FS) : Op → Bool
  | .storeChunk g c _ =>
    match resolve g, resolveUnder g c with
    | .entry d, .inner d' _ =>
      decide (d = d') &&
        (decide (resolve g ≠ resolve fileHash) || !isFile fs (fileHash ++ extractExt fileName))
    | _, _ => false
  | .checkStatus _ _ => true
  | .mergeFile g n _ =>
    match resolve g with
    | .entry _ =>
      decide (resolve g = resolve fileHash) ||
        decide (resolve (g ++ extractExt n) ≠ resolve (fileHash ++ extractExt fileName))
    | _ => false

/-- The request is completed: a store or a merge has sent a response; a status
check changes nothing whatever it answers. -/
def completed (fs : FS) : Op → Bool
  | .checkStatus _ _ => true
  | op => (step fs op).1.isSome

/-- Every request of the sequence is allowed in the state it meets and is
completed. -/
def legalRun (fileHash fileName : String) : FS → List Op → Bool
  | _, [] => true
  | fs, op :: ops =>
    allowed fileHash fileName fs op && completed fs op &&
      legalRun fileHash fileName (step fs op).2 ops

/-- Store a chunk, merge, store the same chunk again. -/
def opsStoreAfterMerge : List Op :=
  [.storeChunk "h" "h-0" [1], .mergeFile "h" "a.bin" 1, .storeChunk "h" "h-0" [1]]

/-- Store a chunk of `h`, then upload and merge the file `h.b` under the file
name `in`, whose artifact is `h.bn`. -/
def opsOtherMerge : List Op :=
  [.storeChunk "h" "h-0" [1], .storeChunk "h.b" "k-0" [2], .mergeFile "h.b" "in" 1]

/-- Store a chunk of `h`, then store for `h` a chunk whose identity climbs out
of the staging directory. -/
def opsClimbingChunk : List Op :=
  [.storeChunk "h" "h-0" [1], .storeChunk "h" "../h.bin" [9]]

/-- Two uploads side by side: chunks of `h` and of `k`, status checks, and the
merge of each. -/
def opsPlain : List Op :=
  [.storeChunk "h" "h-0" [1], .storeChunk "h" "h-1" [2], .checkStatus "h" "a.bin",
    .storeChunk "k" "k-0" [7], .mergeFile "h" "a.bin" 1, .checkStatus "h" "a.bin",
    .mergeFile "k" "b.bin" 1]

/-- The identity the client gives chunk number `i`: `<hash>-<i>`, the index
written in decimal. -/
def chunkName (hash : String) (i : Nat) : String :=
  hash ++ "-" ++ toString i

/-- The staging entries of a file cut into the chunks `cs`: chunk number `i`
is stored under `<hash>-<i>`. -/
def stagedEntries (hash : String) (cs : List Bytes) : List (String × Bytes) :=
  cs.enum.map (fun p => (chunkName hash p.1, p.2))

/-- The chunks `cs` are consecutive pieces of size `S`: every chunk but the
last has length `S`, the last one is non-empty and has length at most `S`. -/
def isSplit (S : Nat) : List Bytes → Prop
  | [] => False
  | [c] => 0 < c.length ∧ c.length ≤ S
  | c :: d :: cs => c.length = S ∧ isSplit S (d :: cs)

/-- Cutting `B` into consecutive pieces of `S` bytes, at most `fuel` of them. -/
def splitChunksFuel : Nat → Nat → Bytes → List Bytes
  | 0, _, _ => []
  | fuel + 1, S, B =>
    if B.isEmpty then [] else B.take S :: splitChunksFuel fuel S (B.drop S)

/-- The chunks of `B` for chunk size `S`: consecutive pieces of `S` bytes, the
last one holding what remains. -/
def splitChunks (S : Nat) (B : Bytes) : List Bytes :=
  splitChunksFuel B.length S B

/-! ## Sample states -/

/-- Staging area `h` with three chunks listed in reverse order. -/
def fsRev : FS :=
  setEntry emptyFS "h" (some (.dir [("h-2", [5]), ("h-1", [3, 4]), ("h-0", [1, 2])]))

/-- Staging area `h` holding one chunk. -/
def fsOneChunk : FS := setEntry emptyFS "h" (some (.dir [("h-0", [1])]))

/-- Staging area `h` with one chunk next to the final artifact `h.bin`. -/
def fsBoth : FS := setEntry fsOneChunk "h.bin" (some (.file [1]))

/-- Only the final artifact `h.txt`. -/
def fsArtifact : FS := setEntry emptyFS "h.txt" (some (.file [1]))

/-- Staging area `h` whose chunk names carry a dash before the index, listed
in reverse order. -/
def fsDashed : FS :=
  setEntry emptyFS "h" (some (.dir (stagedEntries "a-b" (splitChunks 1 [1, 2])).reverse))

/-- Staging area `h` of a file of `2^53 + 2` zero bytes cut with chunk size
`2^53 + 1`. -/
def fsHuge : FS :=
  setEntry emptyFS "h"
    (some (.dir (stagedEntries "h" [List.replicate (2 ^ 53 + 1) 0, [0]])))

/-- An empty staging directory `h`. -/
def fsEmptyDir : FS := setEntry emptyFS "h" (some (.dir []))

/-! ## Basic facts -/

theorem setEntry_same (fs : FS) (p : String) (n : Option Node) : setEntry fs p n p = n := by
  simp [setEntry]

theorem setEntry_other (fs : FS) (p q : String) (n : Option Node) (h : q ≠ p) :
    setEntry fs p n q = fs q := by
  simp [setEntry, h]

theorem verify_state (fs : FS) (fileHash fileName : String) :
    (verify fs fileHash fileName).2 = fs := by
  simp only [verify]
  split
  · rfl
  · split <;> rfl

theorem merge_of_artifact (fs : FS) (fileHash fileName : String) (size : Nat)
    (hA : existsSync fs (fileHash ++ extractExt fileName) = true) :
    merge fs fileHash fileName size = (some mergeOk, fs) := by
  simp [merge, hA, mergeOk]

theorem merge_of_nothing (fs : FS) (fileHash fileName : String) (size : Nat)
    (hA : existsSync fs (fileHash ++ extractExt fileName) = false)
    (hS : existsSync fs fileHash = false) :
    merge fs fileHash fileName size = (some mergeNotFound, fs) := by
  simp [merge, hA, hS, mergeNotFound]

theorem merge_of_file (fs : FS) (fileHash fileName d : String) (size : Nat) (c : Bytes)
    (hA : existsSync fs (fileHash ++ extractExt fileName) = false)
    (hd : resolve fileHash = .entry d) (hS : fs d = some (.file c)) :
    merge fs fileHash fileName size = (none, fs) := by
  have hE : existsSync fs fileHash = true := by simp [existsSync, existsAt, hd, hS]
  simp [merge, hA, hE, hd, hS]

theorem merge_of_dir (fs : FS) (fileHash fileName d : String) (size : Nat)
    (es : List (String × Bytes))
    (hA : existsSync fs (fileHash ++ extractExt fileName) = false)
    (hd : resolve fileHash = .entry d) (hS : fs d = some (.dir es)) :
    merge fs fileHash fileName size =
      mergeChunks fs (resolve (fileHash ++ extractExt fileName)) d es size := by
  have hE : existsSync fs fileHash = true := by simp [existsSync, existsAt, hd, hS]
  simp [merge, hA, hE, hd, hS]

theorem mergeChunks_response (fs : FS) (filePath : Target) (chunkDir : String)
    (es : List (String × Bytes)) (size : Nat) :
    ((mergeChunks fs filePath chunkDir es size).1 = some mergeOk ∧
      (mergeChunks fs filePath chunkDir es size).2 chunkDir = none) ∨
    (mergeChunks fs filePath chunkDir es size).1 = none := by
  simp only [mergeChunks]
  split
  · split
    · right; rfl
    · left; exact ⟨rfl, setEntry_same _ _ _⟩
  · right
    split <;> rfl

theorem merge_response (fs : FS) (fileHash fileName : String) (size : Nat)
    (hA : existsSync fs (fileHash ++ extractExt fileName) = false) :
    (merge fs fileHash fileName size).1 = some mergeNotFound ∨
    (merge fs fileHash fileName size).1 = none ∨
    ∃ d, resolve fileHash = .entry d ∧ (merge fs fileHash fileName size).2 d = none := by
  cases hS : existsSync fs fileHash with
  | false => left; rw [merge_of_nothing fs fileHash fileName size hA hS]
  | true =>
    right
    cases hd : resolve fileHash with
    | entry d =>
      rcases hfs : fs d with _ | (c | es)
      · simp [existsSync, existsAt, hd, hfs] at hS
      · left; rw [merge_of_file fs fileHash fileName d size c hA hd hfs]
      · rw [merge_of_dir fs fileHash fileName d size es hA hd hfs]
        rcases mergeChunks_response fs (resolve (fileHash ++ extractExt fileName)) d es size
          with h | h
        · right; exact ⟨d, rfl, h.2⟩
        · left; exact h
    | _ => left; simp [merge, hA, hS, hd]

/-! ## Merge: guards -/

/-- C5 at the failing input: the upload directory holds only the regular file
`h.txt`, so there is neither a staging area for `h.txt` nor the final
artifact `h.txt.png`; `/merge` passes the `existsSync(chunkDir)` test, its
`readdir` rejects and no 401 answer is sent. -/
theorem merge_rejects_on_file_entry :
    hasPending fsArtifact "h.txt" = false ∧ stagedChunks fsArtifact "h.txt" = [] ∧
    isFile fsArtifact "h.txt" = true ∧
    existsSync fsArtifact ("h.txt" ++ extractExt "a.png") = false ∧
    (merge fsArtifact "h.txt" "a.png" 1).1 = none := by
  decide

/-- C6: when the final artifact `fileHash + extractExt(fileName)` already
exists, `/merge` answers success and the whole upload directory, the artifact
and the staging area of `fileHash` included, is left as it was. -/
theorem merge_existing_artifact (fs : FS) (fileHash fileName : String) (size : Nat)
    (hA : existsSync fs (fileHash ++ extractExt fileName) = true) :
    merge fs fileHash fileName size = (some mergeOk, fs) := by
  simp [merge, hA, mergeOk]

theorem merge_existing_artifact_witness :
    existsSync fsBoth ("h" ++ extractExt "a.bin") = true ∧
    merge fsBoth "h" "a.bin" 1 = (some mergeOk, fsBoth) :=
  ⟨by decide, merge_existing_artifact fsBoth "h" "a.bin" 1 (by decide)⟩

/-! ## Verify -/

/-- C7 at the failing input: with only the regular file `h.txt` in the upload
directory, `/verify` for `fileHash = "h.txt"` finds no final artifact
`h.txt.png`, yet sends no `shouldUpload: true` answer, because `readdir` on
the regular file `h.txt` rejects. -/
theorem verify_rejects_on_file_entry :
    existsSync fsArtifact ("h.txt" ++ extractExt "a.png") = false ∧
    (verify fsArtifact "h.txt" "a.png").1 = none := by
  decide

/-! ## Merge: cleanup and repetition -/

/-- C8, as stated, fails: with the final artifact `h.bin` present next to a
staging area `h` that holds a chunk, `/merge` answers success and the staging
area and its chunk are still there. -/
theorem merge_success_keeps_staging :
    (merge fsBoth "h" "a.bin" 1).1 = some mergeOk ∧
    stagedChunks (merge fsBoth "h" "a.bin" 1).2 "h" = ["h-0"] := by
  decide

/-- C8, amended: if nothing exists at the path of the final artifact before
the call (so that path is not the staging directory itself) and `/merge`
answers success, then afterwards nothing exists at the staging directory of
`fileHash`, so no chunk blob of it remains. -/
theorem merge_cleanup (fs : FS) (fileHash fileName : String) (size : Nat)
    (hA : existsSync fs (fileHash ++ extractExt fileName) = false)
    (hok : (merge fs fileHash fileName size).1 = some mergeOk) :
    existsSync (merge fs fileHash fileName size).2 fileHash = false ∧
    stagedChunks (merge fs fileHash fileName size).2 fileHash = [] := by
  rcases merge_response fs fileHash fileName size hA with h | h | ⟨d, hd, h⟩
  · rw [h] at hok; simp [mergeOk, mergeNotFound] at hok
  · rw [h] at hok; simp at hok
  · simp [existsSync, existsAt, stagedChunks, hd, h]

theorem merge_cleanup_witness :
    existsSync fsRev ("h" ++ extractExt "a.bin") = false ∧
    (merge fsRev "h" "a.bin" 2).1 = some mergeOk ∧
    (existsSync (merge fsRev "h" "a.bin" 2).2 "h" = false ∧
      stagedChunks (merge fsRev "h" "a.bin" 2).2 "h" = []) :=
  ⟨by decide, by decide, merge_cleanup fsRev "h" "a.bin" 2 (by decide) (by decide)⟩

/-- C3 at the failing input: on an empty staging directory `h` with no final
artifact, the first `/merge` answers success without creating the artifact,
and the second call with the same arguments answers the 401 failure. -/
theorem merge_twice_empty_staging :
    (merge fsEmptyDir "h" "a.bin" 2).1 = some mergeOk ∧
    existsSync (merge fsEmptyDir "h" "a.bin" 2).2 "h.bin" = false ∧
    (merge (merge fsEmptyDir "h" "a.bin" 2).2 "h" "a.bin" 2).1 = some mergeNotFound := by
  decide

/-! ## Upload -/

/-- C4, as stated, fails: re-uploading chunk `h-0` with new content to a
staging area that already holds `h-0` sends no success answer and the old
content stays. -/
theorem upload_retry_keeps_old_content :
    (upload fsOneChunk (some ⟨"h", "h-0", [2]⟩)).1 = none ∧
    (upload fsOneChunk (some ⟨"h", "h-0", [2]⟩)).2 "h" = some (.dir [("h-0", [1])]) := by
  decide

/-- C4, amended: when the staging directory of `fileHash` already holds the
blob that `chunkHash` designates, `/upload` does not answer success and the
upload directory is left as it was: the blob keeps its prior content and
every other blob is unchanged. -/
theorem upload_no_overwrite (fs : FS) (fileHash chunkHash d c : String) (data : Bytes)
    (es : List (String × Bytes))
    (hd : resolve fileHash = .entry d) (hdir : fs d = some (.dir es))
    (hc : resolveUnder fileHash chunkHash = .inner d c) (hmem : c ∈ es.map Prod.fst) :
    (∀ r, (upload fs (some ⟨fileHash, chunkHash, data⟩)).1 = some r → r.ok = false) ∧
    (upload fs (some ⟨fileHash, chunkHash, data⟩)).2 = fs := by
  have hany : es.any (fun e => decide (e.1 = c)) = true := by
    simp only [List.mem_map] at hmem
    obtain ⟨e, he, rfl⟩ := hmem
    simp only [List.any_eq_true]
    exact ⟨e, he, by simp⟩
  have hup : upload fs (some ⟨fileHash, chunkHash, data⟩) = (none, fs) := by
    simp [upload, existsAt, moveTo, hd, hdir, hc, hany]
  rw [hup]
  exact ⟨fun r h => by simp at h, rfl⟩

theorem upload_no_overwrite_witness :
    resolve "h" = .entry "h" ∧ fsOneChunk "h" = some (.dir [("h-0", [1])]) ∧
    resolveUnder "h" "h-0" = .inner "h" "h-0" ∧
    "h-0" ∈ [("h-0", ([1] : Bytes))].map Prod.fst ∧
    ((∀ r, (upload fsOneChunk (some ⟨"h", "h-0", [2]⟩)).1 = some r → r.ok = false) ∧
    (upload fsOneChunk (some ⟨"h", "h-0", [2]⟩)).2 = fsOneChunk) :=
  ⟨by decide, by decide, by decide, by decide,
    upload_no_overwrite fsOneChunk "h" "h-0" "h" "h-0" [2] [("h-0", [1])]
      (by decide) (by decide) (by decide) (by decide)⟩

/-! ## Resuming an upload -/

/-- C9 at the failing input: with the empty `fileName`, `extractExt` is empty
and the path of the final artifact is the staging directory itself, so after
one stored chunk `/verify` answers `shouldUpload: false`. -/
theorem resume_fails_for_empty_fileName :
    existsSync emptyFS "h" = false ∧
    existsSync emptyFS ("h" ++ extractExt "") = false ∧
    (uploadAll emptyFS "h" [("h-0", [1])]).1 = [some uploadOk] ∧
    (verify (uploadAll emptyFS "h" [("h-0", [1])]).2 "h" "").1 =
      some ⟨200, true, none, some ⟨false, none⟩⟩ := by
  decide

/-! ## Staging area and final artifact -/

theorem setEntry_setEntry (fs : FS) (p : String) (m n : Option Node) :
    setEntry (setEntry fs p m) p n = setEntry fs p n := by
  funext q
  simp only [setEntry]
  split <;> rfl

theorem upload_store_result (fs : FS) (g c d c' : String) (data : Bytes)
    (hg : resolve g = .entry d) (hc : resolveUnder g c = .inner d c')
    (hresp : (upload fs (some ⟨g, c, data⟩)).1 ≠ none) :
    ∃ es : List (String × Bytes), es ≠ [] ∧
      (upload fs (some ⟨g, c, data⟩)).2 = setEntry fs d (some (.dir es)) ∧
      ∀ x, fs d ≠ some (.file x) := by
  rcases hfs : fs d with _ | (x | es)
  · refine ⟨[(c', data)], by simp, ?_, by simp⟩
    simp [upload, existsAt, mkdirAt, moveTo, hg, hc, hfs, setEntry_same, setEntry_setEntry]
  · exfalso
    apply hresp
    simp [upload, existsAt, moveTo, hg, hc, hfs]
  · by_cases hany : es.any (fun e => decide (e.1 = c')) = true
    · exfalso
      apply hresp
      simp [upload, existsAt, moveTo, hg, hc, hfs, hany]
    · refine ⟨es ++ [(c', data)], by simp, ?_, by simp⟩
      simp [upload, existsAt, moveTo, hg, hc, hfs, hany]

theorem mergeChunks_result (fs : FS) (t : Target) (d : String) (es : List (String × Bytes))
    (size : Nat) (hresp : (mergeChunks fs t d es size).1 ≠ none) :
    (mergeChunks fs t d es size).2 = setEntry fs d none ∨
    ∃ c fs1, writeFile fs t c = some fs1 ∧
      (mergeChunks fs t d es size).2 = setEntry fs1 d none := by
  simp only [mergeChunks] at hresp ⊢
  generalize ((sortChunks (es.map Prod.fst)).enum.filter
    (fun p => decide (p.1 * size ≤ maxSafeInteger))).isEmpty = b1 at hresp ⊢
  generalize ((sortChunks (es.map Prod.fst)).enum.filter
    (fun p => !decide (p.1 * size ≤ maxSafeInteger))).isEmpty = b2 at hresp ⊢
  generalize (List.foldl (fun f p => writeAt f (p.1 * size) (readChunk es p.2)) []
    ((sortChunks (es.map Prod.fst)).enum.filter
      (fun p => decide (p.1 * size ≤ maxSafeInteger)))) = content at hresp ⊢
  cases b2 with
  | false =>
    exfalso
    apply hresp
    simp only [Bool.false_eq_true, if_false]
    split <;> rfl
  | true =>
    cases b1 with
    | true => left; simp
    | false =>
      right
      simp only [Bool.false_eq_true, if_false, if_true] at hresp ⊢
      cases hw : writeFile fs t content with
      | none => rw [hw] at hresp; simp at hresp
      | some fs1 => exact ⟨content, fs1, hw, rfl⟩

theorem merge_result (fs : FS) (g n d : String) (size : Nat)
    (hg : resolve g = .entry d) (hresp : (merge fs g n size).1 ≠ none) :
    (merge fs g n size).2 = fs ∨
    (existsAt fs (resolve (g ++ extractExt n)) = false ∧ (∃ es, fs d = some (.dir es)) ∧
      ((merge fs g n size).2 = setEntry fs d none ∨
        ∃ c fs1, writeFile fs (resolve (g ++ extractExt n)) c = some fs1 ∧
          (merge fs g n size).2 = setEntry fs1 d none)) := by
  cases hA : existsSync fs (g ++ extractExt n) with
  | true => left; rw [merge_of_artifact fs g n size hA]
  | false =>
    rcases hfs : fs d with _ | (x | es)
    · left
      rw [merge_of_nothing fs g n size hA (by simp [existsSync, existsAt, hg, hfs])]
    · exfalso
      apply hresp
      rw [merge_of_file fs g n d size x hA hg hfs]
    · right
      rw [merge_of_dir fs g n d size es hA hg hfs] at hresp ⊢
      exact ⟨hA, ⟨es, rfl⟩, mergeChunks_result fs _ d es size hresp⟩

/-- The invariant carried along a run: the exclusion for the tracked file,
and its staging directory, when present, is not empty. -/
theorem step_preserves_invariant (fileHash fileName d a : String)
    (hd : resolve fileHash = .entry d)
    (ha : resolve (fileHash ++ extractExt fileName) = .entry a)
    (fs : FS) (op : Op)
    (hex : exclusive fs fileHash fileName = true) (hne : fs d ≠ some (.dir []))
    (hal : allowed fileHash fileName fs op = true)
    (hresp : completed fs op = true) :
    exclusive (step fs op).2 fileHash fileName = true ∧ (step fs op).2 d ≠ some (.dir []) := by
  cases op with
  | checkStatus f n =>
    simp only [step, verify_state]
    exact ⟨hex, hne⟩
  | storeChunk g c data =>
    simp only [completed, step] at hresp ⊢
    simp only [allowed] at hal
    cases hg : resolve g with
    | entry g' =>
      cases hc : resolveUnder g c with
      | inner g'' c' =>
        rw [hg, hc] at hal
        simp only [Bool.and_eq_true, Bool.or_eq_true, decide_eq_true_eq, hd] at hal
        obtain ⟨hgg, hcond⟩ := hal
        subst hgg
        obtain ⟨es, hes, hst, hnf⟩ := upload_store_result fs g c g' c' data hg hc
          (by intro h0; rw [h0] at hresp; simp at hresp)
        rw [hst]
        simp only [exclusive, hasPending, isFile, hd, ha] at hex hcond ⊢
        by_cases h2 : d = g'
        · subst h2
          refine ⟨?_, by simp [setEntry_same, hes]⟩
          by_cases h1 : a = d
          · subst h1
            simp [setEntry_same]
          · rw [setEntry_other _ _ _ _ h1]
            rcases hcond with hne' | hnf'
            · exact absurd rfl hne'
            · simp only [Bool.not_eq_true'] at hnf'
              simp [hnf']
        · rw [setEntry_other _ _ _ _ h2]
          refine ⟨?_, hne⟩
          by_cases h1 : a = g'
          · subst h1
            simp [setEntry_same]
          · rw [setEntry_other _ _ _ _ h1]
            exact hex
      | _ => rw [hg, hc] at hal; simp at hal
    | _ => rw [hg] at hal; simp at hal
  | mergeFile g n size =>
    simp only [completed, step] at hresp ⊢
    simp only [allowed] at hal
    cases hg : resolve g with
    | entry g' =>
      rw [hg] at hal
      simp only [Bool.or_eq_true, decide_eq_true_eq, hd, ha] at hal
      rcases merge_result fs g n g' size hg
        (by intro h0; rw [h0] at hresp; simp at hresp) with hst | ⟨hnot, ⟨es, hfd⟩, hst⟩
      · rw [hst]; exact ⟨hex, hne⟩
      · simp only [exclusive, hasPending, isFile, hd, ha] at hex ⊢
        by_cases h2 : d = g'
        · subst h2
          rcases hst with hst | ⟨c, fs1, _, hst⟩ <;> rw [hst] <;> simp [setEntry_same]
        · have hcol : resolve (g ++ extractExt n) ≠ .entry a := by
            rcases hal with h | h
            · exact absurd (Target.entry.inj h).symm h2
            · exact h
          rcases hst with hst | ⟨c, fs1, hw, hst⟩
          · rw [hst, setEntry_other _ _ _ _ h2]
            refine ⟨?_, hne⟩
            by_cases h1 : a = g'
            · subst h1; simp [setEntry_same]
            · rw [setEntry_other _ _ _ _ h1]; exact hex
          · rw [hst, setEntry_other _ _ _ _ h2]
            cases ht : resolve (g ++ extractExt n) with
            | entry a' =>
              rw [ht] at hw hcol hnot
              simp only [writeFile, Option.some.injEq] at hw
              subst hw
              have hne' : a ≠ a' := fun e => hcol (by rw [e])
              have hfa : fs a' = none := by simpa [existsAt] using hnot
              by_cases h3 : d = a'
              · subst h3
                rw [hfa] at hex
                simp [setEntry_same]
              · rw [setEntry_other _ _ _ _ h3]
                refine ⟨?_, hne⟩
                by_cases h1 : a = g'
                · subst h1; simp [setEntry_same]
                · rw [setEntry_other _ _ _ _ h1, setEntry_other _ _ _ _ hne']; exact hex
            | inner x y =>
              rw [ht] at hw
              simp only [writeFile] at hw
              rcases hx : fs x with _ | (cx | ex)
              · rw [hx] at hw; simp at hw
              · rw [hx] at hw; simp at hw
              · rw [hx] at hw
                simp only [Option.some.injEq] at hw
                subst hw
                by_cases h3 : d = x
                · subst h3
                  have hex' : ex ≠ [] := by
                    intro e; apply hne; rw [hx, e]
                  refine ⟨?_, by simp [setEntry_same, hex']⟩
                  have hpend : (match fs d with
                      | some (.dir (_ :: _)) => true
                      | _ => false) = true := by
                    rw [hx]
                    cases ex with
                    | nil => exact absurd rfl hex'
                    | cons e ex => rfl
                  rw [hpend] at hex
                  simp only [Bool.true_and, Bool.not_eq_true'] at hex
                  by_cases h1 : a = g'
                  · subst h1; simp [setEntry_same]
                  · rw [setEntry_other _ _ _ _ h1]
                    by_cases h4 : a = d
                    · subst h4; simp [setEntry_same]
                    · rw [setEntry_other _ _ _ _ h4]; simp [hex]
                · rw [setEntry_other _ _ _ _ h3]
                  refine ⟨?_, hne⟩
                  by_cases h1 : a = g'
                  · subst h1; simp [setEntry_same]
                  · rw [setEntry_other _ _ _ _ h1]
                    by_cases h4 : a = x
                    · subst h4; simp [setEntry_same]
                    · rw [setEntry_other _ _ _ _ h4]; exact hex
            | root => rw [ht] at hw; simp [writeFile] at hw
            | deeper => rw [ht] at hw; simp [writeFile] at hw
            | invalid => rw [ht] at hw; simp [writeFile] at hw
            | outside => rw [ht] at hw; simp [writeFile] at hw
    | _ => rw [hg] at hal; simp at hal

theorem legalRun_preserves_exclusive (fileHash fileName d a : String)
    (hd : resolve fileHash = .entry d)
    (ha : resolve (fileHash ++ extractExt fileName) = .entry a) (ops : List Op) :
    ∀ fs : FS, exclusive fs fileHash fileName = true → fs d ≠ some (.dir []) →
      legalRun fileHash fileName fs ops = true →
      exclusive (runAll fs ops).2 fileHash fileName = true := by
  induction ops with
  | nil => intro fs hex _ _; exact hex
  | cons op ops ih =>
    intro fs hex hne hl
    simp only [legalRun, Bool.and_eq_true] at hl
    simp only [runAll]
    have hstep := step_preserves_invariant fileHash fileName d a hd ha fs op hex hne
      hl.1.1 hl.1.2
    exact ih _ hstep.1 hstep.2 hl.2

/-- C10, as stated, fails three times, each time by completed steps from the
empty upload directory that leave a pending chunk of `h` next to a final
artifact of `h`: a chunk stored after the merge; the merge of another file,
`h.b` under the file name `in`, whose artifact `h.bn` is an artifact of `h`;
a chunk whose identity `../h.bin` climbs out of the staging directory. -/
theorem exclusion_broken_by_upload :
    ((runAll emptyFS opsStoreAfterMerge).1 = [some uploadOk, some mergeOk, some uploadOk] ∧
      hasPending (runAll emptyFS opsStoreAfterMerge).2 "h" = true ∧
      isFile (runAll emptyFS opsStoreAfterMerge).2 ("h" ++ extractExt "a.bin") = true) ∧
    ((runAll emptyFS opsOtherMerge).1 = [some uploadOk, some uploadOk, some mergeOk] ∧
      hasPending (runAll emptyFS opsOtherMerge).2 "h" = true ∧
      isFile (runAll emptyFS opsOtherMerge).2 ("h" ++ extractExt "a.bn") = true) ∧
    ((runAll emptyFS opsClimbingChunk).1 = [some uploadOk, some uploadOk] ∧
      hasPending (runAll emptyFS opsClimbingChunk).2 "h" = true ∧
      isFile (runAll emptyFS opsClimbingChunk).2 ("h" ++ extractExt "a.bin") = true) := by
  decide

/-- C10, amended: let `fileHash` designate a staging directory and
`fileHash + extractExt(fileName)` an artifact, both directly inside the upload
directory.  In every state reached from the empty upload directory by
completed `/upload`, `/verify` and `/merge` steps, where every store names a
staging directory and a chunk inside it and is not made for `fileHash` while
its final artifact exists, and every merge names a staging directory and does
not write the artifact of `fileHash` for another file, there are not both a
pending chunk of `fileHash` and its final artifact. -/
theorem exclusion_invariant (fileHash fileName d a : String) (ops : List Op)
    (hd : resolve fileHash = .entry d)
    (ha : resolve (fileHash ++ extractExt fileName) = .entry a)
    (hlegal : legalRun fileHash fileName emptyFS ops = true) :
    ¬ (hasPending (runAll emptyFS ops).2 fileHash = true ∧
      isFile (runAll emptyFS ops).2 (fileHash ++ extractExt fileName) = true) := by
  have h := legalRun_preserves_exclusive fileHash fileName d a hd ha ops emptyFS
    (by simp [exclusive, hasPending, hd, emptyFS]) (by simp [emptyFS]) hlegal
  intro hboth
  simp [exclusive, hboth.1, hboth.2] at h

theorem exclusion_invariant_witness :
    resolve "h" = .entry "h" ∧ resolve ("h" ++ extractExt "a.bin") = .entry "h.bin" ∧
    legalRun "h" "a.bin" emptyFS opsPlain = true ∧
    ¬ (hasPending (runAll emptyFS opsPlain).2 "h" = true ∧
      isFile (runAll emptyFS opsPlain).2 ("h" ++ extractExt "a.bin") = true) :=
  ⟨by decide, by decide, by decide,
    exclusion_invariant "h" "a.bin" "h" "h.bin" opsPlain (by decide) (by decide) (by decide)⟩

/-! ## The sort step -/

/-- C2, as stated, fails twice.  With a dash inside `<anything>` the comparator
reads the wrong field: `x-y-10` stays before `x-y-9`.  With indices above
`2^53` the conversion to a number rounds: the chunk with index `2^53 + 1`
stays before the chunk with index `2^53`. -/
theorem sortChunks_not_numeric :
    sortChunks [chunkName "x-y" 10, chunkName "x-y" 9] =
      [chunkName "x-y" 10, chunkName "x-y" 9] ∧
    sortChunks [chunkName "h" (2 ^ 53 + 1), chunkName "h" (2 ^ 53)] =
      [chunkName "h" (2 ^ 53 + 1), chunkName "h" (2 ^ 53)] := by
  decide

theorem digitChar_spec (k : Nat) (hk : k < 10) :
    (Nat.digitChar k).isDigit = true ∧ (Nat.digitChar k).toNat - 48 = k ∧
      Nat.digitChar k ≠ '-' := by
  interval_cases k <;> decide

theorem decimalValue_snoc (ds : List Char) (c : Char) :
    decimalValue (ds ++ [c]) = 10 * decimalValue ds + (c.toNat - 48) := by
  simp [decimalValue, List.foldl_append]

theorem toDigitsCore_spec : ∀ (fuel n : Nat) (ds : List Char), n < fuel →
    ∃ front, Nat.toDigitsCore 10 fuel n ds = front ++ ds ∧
      front.all Char.isDigit = true ∧ decimalValue front = n ∧ '-' ∉ front := by
  intro fuel
  induction fuel with
  | zero => intro n ds h; omega
  | succ fuel ih =>
    intro n ds h
    obtain ⟨hd1, hd2, hd3⟩ := digitChar_spec (n % 10) (Nat.mod_lt _ (by decide))
    simp only [Nat.toDigitsCore]
    split
    · rename_i h0
      refine ⟨[Nat.digitChar (n % 10)], rfl, by simp [hd1], ?_, ?_⟩
      · have := decimalValue_snoc [] (Nat.digitChar (n % 10))
        simp only [List.nil_append] at this
        rw [this, hd2]
        simp only [decimalValue, List.foldl_nil]
        omega
      · simpa using hd3.symm
    · rename_i h0
      obtain ⟨front, hf1, hf2, hf3, hf4⟩ :=
        ih (n / 10) (Nat.digitChar (n % 10) :: ds) (by omega)
      refine ⟨front ++ [Nat.digitChar (n % 10)], by simp [hf1], ?_, ?_, ?_⟩
      · simp [List.all_append, hf2, hd1]
      · rw [decimalValue_snoc, hf3, hd2]; omega
      · simp only [List.mem_append, List.mem_singleton, not_or]
        exact ⟨hf4, hd3.symm⟩

theorem toString_spec (i : Nat) :
    (toString i).data.all Char.isDigit = true ∧ decimalValue (toString i).data = i ∧
      '-' ∉ (toString i).data := by
  obtain ⟨front, hf1, hf2, hf3, hf4⟩ := toDigitsCore_spec (i + 1) i [] (by omega)
  have hdata : (toString i).data = front := by
    show (Nat.repr i).data = front
    simp only [Nat.repr, Nat.toDigits, List.asString, hf1, List.append_nil]
  rw [hdata]
  exact ⟨hf2, hf3, hf4⟩

theorem splitDash_no_dash (d : List Char) (h : '-' ∉ d) : splitDash d = [d] := by
  induction d with
  | nil => rfl
  | cons c cs ih =>
    simp only [List.mem_cons, not_or] at h
    have hc : c ≠ '-' := fun e => h.1 e.symm
    simp [splitDash, ih h.2, hc]

theorem splitDash_ne_nil (d : List Char) : splitDash d ≠ [] := by
  cases d with
  | nil => simp [splitDash]
  | cons c cs =>
    simp only [splitDash]
    split <;> split <;> simp

theorem splitDash_dash (d : List Char) : splitDash ('-' :: d) = [] :: splitDash d := by
  simp only [splitDash]
  split
  · rename_i h; exact absurd h (splitDash_ne_nil d)
  · rename_i h; simp [h]

theorem splitDash_append (p d : List Char) (hp : '-' ∉ p) :
    splitDash (p ++ '-' :: d) = p :: splitDash d := by
  induction p with
  | nil => exact splitDash_dash d
  | cons c cs ih =>
    simp only [List.mem_cons, not_or] at hp
    have hc : c ≠ '-' := fun e => hp.1 e.symm
    simp [splitDash, ih hp.2, hc]

theorem chunkName_field (hash : String) (i : Nat) (hp : '-' ∉ hash.data) :
    (splitDash (chunkName hash i).data).get? 1 = some (toString i).data := by
  have hdata : (chunkName hash i).data = hash.data ++ '-' :: (toString i).data := by
    simp [chunkName, String.data_append]
  rw [hdata, splitDash_append _ _ hp, splitDash_no_dash _ (toString_spec i).2.2]
  rfl

theorem chunkName_toNumber (hash : String) (i : Nat) (hp : '-' ∉ hash.data)
    (hi : i ≤ 2 ^ 53) :
    toNumber ((splitDash (chunkName hash i).data).get? 1) = .fin i := by
  rw [chunkName_field hash i hp]
  simp only [toNumber, stringToNumber, (toString_spec i).1, if_true, (toString_spec i).2.1,
    toDouble, hi]

theorem comparator_chunkName (h₁ h₂ : String) (i j : Nat) (hp₁ : '-' ∉ h₁.data)
    (hp₂ : '-' ∉ h₂.data) (hi : i ≤ 2 ^ 53) (hj : j ≤ 2 ^ 53) :
    (comparator (chunkName h₁ i) (chunkName h₂ j)).isPos = decide (j < i) := by
  simp only [comparator, chunkName_toNumber h₁ i hp₁ hi, chunkName_toNumber h₂ j hp₂ hj,
    JSNum.sub, JSNum.isPos]
  congr 1
  apply propext
  omega

theorem insertSorted_map {α : Type} (f : α → String) (key : α → Nat) (a : α) (l : List α)
    (h : ∀ b ∈ l, (comparator (f a) (f b)).isPos = decide (key b < key a)) :
    insertSorted comparator (f a) (l.map f) =
      (List.orderedInsert (fun x y => key x ≤ key y) a l).map f := by
  induction l with
  | nil => rfl
  | cons b l ih =>
    have hb := h b (List.mem_cons_self _ _)
    have ih' := ih (fun c hc => h c (List.mem_cons_of_mem _ hc))
    simp only [List.map_cons, insertSorted, List.orderedInsert, hb, decide_eq_true_eq]
    by_cases hlt : key b < key a
    · have hle : ¬ key a ≤ key b := by omega
      simp [hlt, hle, ih']
    · have hle : key a ≤ key b := by omega
      simp [hlt, hle]

theorem jsSort_map {α : Type} (f : α → String) (key : α → Nat) (l : List α)
    (h : ∀ a ∈ l, ∀ b ∈ l, (comparator (f a) (f b)).isPos = decide (key b < key a)) :
    jsSort comparator (l.map f) = (List.insertionSort (fun x y => key x ≤ key y) l).map f := by
  induction l with
  | nil => rfl
  | cons a l ih =>
    have ih' := ih (fun x hx y hy => h x (List.mem_cons_of_mem _ hx) y (List.mem_cons_of_mem _ hy))
    simp only [List.map_cons, jsSort, List.insertionSort, ih']
    apply insertSorted_map
    intro b hb
    have hb' : b ∈ l := (List.perm_insertionSort _ l).mem_iff.mp hb
    exact h a (List.mem_cons_self _ _) b (List.mem_cons_of_mem _ hb')

theorem insertionSort_strict {α : Type} (key : α → Nat) (l : List α)
    (hd : (l.map key).Nodup) :
    (List.insertionSort (fun x y => key x ≤ key y) l).Pairwise (fun a b => key a < key b) := by
  haveI : IsTotal α (fun x y => key x ≤ key y) := ⟨fun a b => Nat.le_total (key a) (key b)⟩
  haveI : IsTrans α (fun x y => key x ≤ key y) := ⟨fun a b c hab hbc => Nat.le_trans hab hbc⟩
  have hs : (List.insertionSort (fun x y => key x ≤ key y) l).Pairwise
      (fun x y => key x ≤ key y) := List.sorted_insertionSort _ l
  have hp := List.perm_insertionSort (fun x y => key x ≤ key y) l
  have hd' : ((List.insertionSort (fun x y => key x ≤ key y) l).map key).Nodup :=
    (hp.map key).nodup_iff.mpr hd
  have hne : (List.insertionSort (fun x y => key x ≤ key y) l).Pairwise
      (fun x y => key x ≠ key y) := List.pairwise_map.mp hd'
  exact (hs.and hne).imp (fun h => Nat.lt_of_le_of_ne h.1 h.2)

/-- C2, amended: for chunk identities `<hash>-<index>` whose part before the
index contains no dash and whose decimal indices are pairwise distinct and at
most `2^53`, the sort step of `/merge` returns a permutation of the list in
ascending numeric order of the index. -/
theorem sortChunks_numeric (l : List (String × Nat))
    (hpre : ∀ p ∈ l, '-' ∉ p.1.data) (hidx : ∀ p ∈ l, p.2 ≤ 2 ^ 53)
    (hd : (l.map Prod.snd).Nodup) :
    ∃ l' : List (String × Nat), l'.Perm l ∧
      sortChunks (l.map (fun p => chunkName p.1 p.2)) = l'.map (fun p => chunkName p.1 p.2) ∧
      (sortChunks (l.map (fun p => chunkName p.1 p.2))).Perm
        (l.map (fun p => chunkName p.1 p.2)) ∧
      l'.Pairwise (fun a b => a.2 < b.2) := by
  have hsort := jsSort_map (fun p : String × Nat => chunkName p.1 p.2) Prod.snd l
    (fun a ha b hb =>
      comparator_chunkName a.1 b.1 a.2 b.2 (hpre a ha) (hpre b hb) (hidx a ha) (hidx b hb))
  have hp := List.perm_insertionSort (fun x y : String × Nat => x.2 ≤ y.2) l
  refine ⟨List.insertionSort (fun x y => x.2 ≤ y.2) l, hp, hsort, ?_,
    insertionSort_strict Prod.snd l hd⟩
  unfold sortChunks
  rw [hsort]
  exact hp.map _

theorem sortChunks_numeric_witness :
    (∀ p ∈ [("h", 10), ("h", 9), ("h", 2)], '-' ∉ p.1.data) ∧
    (∀ p ∈ [("h", 10), ("h", 9), ("h", 2)], p.2 ≤ 2 ^ 53) ∧
    ([("h", 10), ("h", 9), ("h", 2)].map Prod.snd).Nodup ∧
    ∃ l' : List (String × Nat), l'.Perm [("h", 10), ("h", 9), ("h", 2)] ∧
      sortChunks ([("h", 10), ("h", 9), ("h", 2)].map (fun p => chunkName p.1 p.2)) =
        l'.map (fun p => chunkName p.1 p.2) ∧
      (sortChunks ([("h", 10), ("h", 9), ("h", 2)].map (fun p => chunkName p.1 p.2))).Perm
        ([("h", 10), ("h", 9), ("h", 2)].map (fun p => chunkName p.1 p.2)) ∧
      l'.Pairwise (fun a b => a.2 < b.2) :=
  ⟨by decide, by decide, by decide,
    sortChunks_numeric [("h", 10), ("h", 9), ("h", 2)] (by decide) (by decide) (by decide)⟩

/-! ## Reassembly -/

theorem writeAt_end (f data : Bytes) : writeAt f f.length data = f ++ data := by
  simp [writeAt, List.drop_eq_nil_of_le]

theorem isSplit_length_flatten (S : Nat) (cs : List Bytes) (h : isSplit S cs) :
    (cs.length - 1) * S < cs.flatten.length := by
  induction cs with
  | nil => exact absurd h (by simp [isSplit])
  | cons c cs ih =>
    cases cs with
    | nil =>
      simp only [isSplit] at h
      simp; omega
    | cons d cs =>
      simp only [isSplit] at h
      have := ih h.2
      simp only [List.length_cons, List.flatten_cons, List.length_append] at this ⊢
      rw [h.1]
      have e : (cs.length + 1 + 1 - 1) * S = (cs.length + 1 - 1) * S + S := by
        simp only [Nat.add_sub_cancel]
        rw [Nat.succ_mul]
      rw [e]
      omega

theorem foldl_writeAt (S : Nat) (cs : List Bytes) :
    ∀ (k : Nat) (acc : Bytes), acc.length = k * S → isSplit S cs →
      (cs.enumFrom k).foldl (fun f p => writeAt f (p.1 * S) p.2) acc = acc ++ cs.flatten := by
  induction cs with
  | nil => intro k acc _ h; exact absurd h (by simp [isSplit])
  | cons c cs ih =>
    intro k acc hacc h
    cases cs with
    | nil =>
      simp only [List.enumFrom_cons, List.enumFrom_nil, List.foldl_cons, List.foldl_nil,
        List.flatten_cons, List.flatten_nil, List.append_nil]
      rw [← hacc, writeAt_end]
    | cons d cs =>
      simp only [isSplit] at h
      rw [List.enumFrom_cons, List.foldl_cons]
      simp only []
      rw [← hacc, writeAt_end]
      rw [ih (k + 1) (acc ++ c) (by rw [List.length_append, hacc, h.1, Nat.succ_mul]) h.2]
      simp

theorem exists_perm_of_perm_map {α β : Type} (g : α → β) :
    ∀ (l : List α) (es : List β), es.Perm (l.map g) →
      ∃ l' : List α, l'.Perm l ∧ l'.map g = es := by
  intro l
  induction l with
  | nil =>
    intro es h
    exact ⟨[], List.Perm.refl _, by simpa using h.eq_nil.symm⟩
  | cons a l ih =>
    intro es h
    have hmem : g a ∈ es := h.mem_iff.mpr (by simp)
    obtain ⟨s, t, rfl⟩ := List.append_of_mem hmem
    have h2 : (s ++ t).Perm (l.map g) := by
      have h3 : (g a :: (s ++ t)).Perm (g a :: l.map g) := List.perm_middle.symm.trans h
      exact h3.cons_inv
    obtain ⟨l2, hl2, hmap⟩ := ih (s ++ t) h2
    obtain ⟨l₁, l₂, rfl, h₁, h₂⟩ := List.map_eq_append_iff.mp hmap
    refine ⟨l₁ ++ a :: l₂, List.perm_middle.trans (hl2.cons a), ?_⟩
    simp [h₁, h₂]

theorem chunkName_injective (hash : String) (i j : Nat)
    (h : chunkName hash i = chunkName hash j) : i = j := by
  have hd := congrArg String.data h
  simp only [chunkName, String.data_append] at hd
  have hd2 := List.append_cancel_left hd
  rw [← (toString_spec i).2.1, ← (toString_spec j).2.1, hd2]

theorem readChunk_entry (hash : String) (l : List (Nat × Bytes))
    (hd : (l.map Prod.fst).Nodup) (i : Nat) (c : Bytes) (hm : (i, c) ∈ l) :
    readChunk (l.map (fun p => (chunkName hash p.1, p.2))) (chunkName hash i) = c := by
  induction l with
  | nil => simp at hm
  | cons p l ih =>
    simp only [List.map_cons, List.nodup_cons] at hd
    by_cases hp : p.1 = i
    · have hpc : p = (i, c) := by
        rcases List.mem_cons.mp hm with h | h
        · exact h.symm
        · exfalso
          apply hd.1
          rw [hp]
          exact List.mem_map.mpr ⟨(i, c), h, rfl⟩
      simp [readChunk, hpc]
    · have hne : chunkName hash p.1 ≠ chunkName hash i :=
        fun e => hp (chunkName_injective hash _ _ e)
      have hm' : (i, c) ∈ l := by
        rcases List.mem_cons.mp hm with h | h
        · exfalso; apply hp; rw [← h]
        · exact h
      have := ih hd.2 hm'
      simp only [readChunk, List.map_cons] at this ⊢
      rw [List.find?_cons_of_neg _ (by simpa using hne)]
      exact this

theorem sortChunks_staged (hash : String) (cs : List Bytes) (l : List (Nat × Bytes))
    (hp : l.Perm cs.enum) (hhash : '-' ∉ hash.data) (hn : cs.length ≤ 2 ^ 53) :
    sortChunks (l.map (fun p => chunkName hash p.1)) =
      cs.enum.map (fun p => chunkName hash p.1) := by
  have hlt : ∀ a ∈ l, a.1 ≤ 2 ^ 53 := by
    intro a ha
    have := List.fst_lt_of_mem_enum (hp.mem_iff.mp ha)
    omega
  have hsort := jsSort_map (fun p : Nat × Bytes => chunkName hash p.1) Prod.fst l
    (fun a ha b hb => comparator_chunkName hash hash a.1 b.1 hhash hhash (hlt a ha) (hlt b hb))
  have hnd : (l.map Prod.fst).Nodup := by
    have := (hp.map Prod.fst).nodup_iff.mpr (by rw [List.enum_map_fst]; exact List.nodup_range _)
    exact this
  have hs1 : ((List.insertionSort (fun x y : Nat × Bytes => x.1 ≤ y.1) l).map Prod.fst).Sorted
      (· < ·) := List.pairwise_map.mpr (insertionSort_strict Prod.fst l hnd)
  have hs2 : (cs.enum.map Prod.fst).Sorted (· < ·) := by
    rw [List.enum_map_fst]; exact List.sorted_lt_range _
  have hperm : ((List.insertionSort (fun x y : Nat × Bytes => x.1 ≤ y.1) l).map Prod.fst).Perm
      (cs.enum.map Prod.fst) := ((List.perm_insertionSort _ l).trans hp).map _
  have heq := List.eq_of_perm_of_sorted hperm hs1 hs2
  unfold sortChunks
  rw [hsort]
  have e : ∀ m : List (Nat × Bytes), m.map (fun p => chunkName hash p.1) =
      (m.map Prod.fst).map (chunkName hash) := by
    intro m; simp [List.map_map, Function.comp_def]
  rw [e, e cs.enum, heq]

theorem enumFrom_map_index {α β : Type} (h : Nat → β) (cs : List α) :
    ∀ k, ((cs.enumFrom k).map (fun p => h p.1)).enumFrom k =
      (cs.enumFrom k).map (fun p => (p.1, h p.1)) := by
  induction cs with
  | nil => intro k; rfl
  | cons c cs ih => intro k; simp [List.enumFrom_cons, ih (k + 1)]

theorem isSplit_pos (S : Nat) (cs : List Bytes) (h : isSplit S cs) : 0 < S := by
  induction cs with
  | nil => exact absurd h (by simp [isSplit])
  | cons c cs ih =>
    cases cs with
    | nil => simp only [isSplit] at h; omega
    | cons d cs => simp only [isSplit] at h; exact ih h.2

theorem mergeChunks_round_trip (fs : FS) (filePath chunkDir hash : String) (S : Nat)
    (cs : List Bytes) (l : List (Nat × Bytes)) (hp : l.Perm cs.enum)
    (hhash : '-' ∉ hash.data) (hsplit : isSplit S cs) (hlen : cs.flatten.length < 2 ^ 53) :
    mergeChunks fs (.entry filePath) chunkDir (l.map (fun p => (chunkName hash p.1, p.2))) S =
      (some mergeOk,
        setEntry (setEntry fs filePath (some (.file cs.flatten))) chunkDir none) := by
  have hS := isSplit_pos S cs hsplit
  have hbound := isSplit_length_flatten S cs hsplit
  have hne : cs ≠ [] := by
    intro h0; rw [h0] at hsplit; simp [isSplit] at hsplit
  have hn : cs.length ≤ 2 ^ 53 := by
    have h1 : (cs.length - 1) * 1 ≤ (cs.length - 1) * S := Nat.mul_le_mul_left _ hS
    omega
  have hnames : (l.map (fun p => (chunkName hash p.1, p.2))).map Prod.fst =
      l.map (fun p => chunkName hash p.1) := by
    simp [List.map_map, Function.comp_def]
  have hsorted := sortChunks_staged hash cs l hp hhash hn
  have hlist : (cs.enum.map (fun p => chunkName hash p.1)).enum =
      cs.enum.map (fun p => (p.1, chunkName hash p.1)) :=
    enumFrom_map_index (chunkName hash) cs 0
  have hsafe : ∀ p ∈ cs.enum.map (fun p => (p.1, chunkName hash p.1)),
      p.1 * S ≤ maxSafeInteger := by
    intro p hpm
    obtain ⟨q, hq, rfl⟩ := List.mem_map.mp hpm
    have h1 := List.fst_lt_of_mem_enum hq
    have h2 : q.1 * S ≤ (cs.length - 1) * S := Nat.mul_le_mul_right _ (by omega)
    simp only [maxSafeInteger]
    omega
  have hcopied : (cs.enum.map (fun p => (p.1, chunkName hash p.1))).filter
      (fun p => decide (p.1 * S ≤ maxSafeInteger)) =
      cs.enum.map (fun p => (p.1, chunkName hash p.1)) :=
    List.filter_eq_self.mpr (fun p hpm => by simpa using hsafe p hpm)
  have hrefused : (cs.enum.map (fun p => (p.1, chunkName hash p.1))).filter
      (fun p => !decide (p.1 * S ≤ maxSafeInteger)) = [] :=
    List.filter_eq_nil_iff.mpr (fun p hpm => by simpa using hsafe p hpm)
  have hnd : (l.map Prod.fst).Nodup :=
    (hp.map Prod.fst).nodup_iff.mpr (by rw [List.enum_map_fst]; exact List.nodup_range _)
  have hcontent : (cs.enum.map (fun p => (p.1, chunkName hash p.1))).foldl
      (fun f p => writeAt f (p.1 * S)
        (readChunk (l.map (fun p => (chunkName hash p.1, p.2))) p.2)) [] = cs.flatten := by
    rw [List.foldl_map]
    have := foldl_writeAt S cs 0 [] (by simp) hsplit
    simp only [List.nil_append] at this
    rw [← this]
    apply List.foldl_ext
    intro acc p hpm
    have hmem : (p.1, p.2) ∈ l := hp.mem_iff.mpr hpm
    simp only [readChunk_entry hash l hnd p.1 p.2 hmem]
  have hempty : (cs.enum.map (fun p => (p.1, chunkName hash p.1))).isEmpty = false := by
    cases cs with
    | nil => exact absurd rfl hne
    | cons c cs => rfl
  simp only [mergeChunks, writeFile, hnames, hsorted, hlist, hcopied, hrefused, hcontent,
    hempty, List.isEmpty_nil, if_true, Bool.false_eq_true, if_false, mergeOk]

theorem isSplit_cons (S : Nat) (c : Bytes) (cs : List Bytes) (hc : c.length = S)
    (h : isSplit S cs) : isSplit S (c :: cs) := by
  cases cs with
  | nil => exact absurd h (by simp [isSplit])
  | cons d cs => exact ⟨hc, h⟩

theorem splitChunksFuel_spec (S : Nat) (hS : 0 < S) :
    ∀ (fuel : Nat) (B : Bytes), B.length ≤ fuel →
      (splitChunksFuel fuel S B).flatten = B ∧
      (B ≠ [] → isSplit S (splitChunksFuel fuel S B)) := by
  intro fuel
  induction fuel with
  | zero =>
    intro B hB
    have : B = [] := List.length_eq_zero.mp (by omega)
    subst this
    simp [splitChunksFuel]
  | succ fuel ih =>
    intro B hB
    cases B with
    | nil => simp [splitChunksFuel]
    | cons b B =>
      have hrest : ((b :: B).drop S).length ≤ fuel := by
        simp only [List.length_drop, List.length_cons] at hB ⊢
        omega
      obtain ⟨ih1, ih2⟩ := ih ((b :: B).drop S) hrest
      have hunf : splitChunksFuel (fuel + 1) S (b :: B) =
          (b :: B).take S :: splitChunksFuel fuel S ((b :: B).drop S) := by
        simp [splitChunksFuel]
      rw [hunf]
      refine ⟨by rw [List.flatten_cons, ih1, List.take_append_drop], fun _ => ?_⟩
      by_cases hd : (b :: B).drop S = []
      · have hfl := ih1
        rw [hd] at hfl
        have hnil : splitChunksFuel fuel S ((b :: B).drop S) = [] := by
          rw [hd]
          cases fuel <;> simp [splitChunksFuel]
        rw [hnil]
        have hle : (b :: B).length ≤ S := by
          have := congrArg List.length hd
          simp only [List.length_drop, List.length_nil] at this
          omega
        simp only [isSplit, List.length_take]
        simp only [List.length_cons] at hle ⊢
        omega
      · apply isSplit_cons
        · have : 0 < ((b :: B).drop S).length := List.length_pos.mpr hd
          simp only [List.length_drop] at this
          simp only [List.length_take]
          omega
        · exact ih2 hd

/-- C1, as stated, fails four times.  When the text before the index holds a
dash the comparator does not see the index: chunks `a-b-1`, `a-b-0` listed in
reverse are merged as listed and the artifact is `[2, 1]`, not `[1, 2]`.  When
the file is longer than `2^53 - 1` bytes the offset of a later chunk is not a
safe integer, its write stream is refused and `/merge` sends no success.  For
the file names `""` and `"a/"` the path of the final artifact is the staging
directory itself: no final artifact exists, `/merge` answers success, and
afterwards there is still no artifact and every chunk is still staged. -/
theorem merge_round_trip_fails :
    ((merge fsDashed "h" "a.bin" 1).1 = some mergeOk ∧
      (merge fsDashed "h" "a.bin" 1).2 "h.bin" = some (.file [2, 1])) ∧
    (merge fsHuge "h" "a.bin" (2 ^ 53 + 1)).1 = none ∧
    (fsRev "h" = some (.dir (stagedEntries "h" (splitChunks 2 [1, 2, 3, 4, 5])).reverse) ∧
      isFile fsRev ("h" ++ extractExt "") = false ∧
      (merge fsRev "h" "" 2).1 = some mergeOk ∧
      isFile (merge fsRev "h" "" 2).2 ("h" ++ extractExt "") = false ∧
      stagedChunks (merge fsRev "h" "" 2).2 "h" = ["h-2", "h-1", "h-0"]) ∧
    (isFile fsRev ("h" ++ extractExt "a/") = false ∧
      (merge fsRev "h" "a/" 2).1 = some mergeOk ∧
      isFile (merge fsRev "h" "a/" 2).2 ("h" ++ extractExt "a/") = false ∧
      stagedChunks (merge fsRev "h" "a/" 2).2 "h" = ["h-2", "h-1", "h-0"]) := by
  decide

/-- C1, amended: let `B` be a non-empty byte sequence shorter than `2^53`
bytes and `S > 0`.  Let the chunks of `B` be named `<hash>-0`, `<hash>-1`, ...
with no dash in `<hash>`, each name a file name, and let the staging directory
of `fileHash`, an entry of the upload directory, list them in any order.  Let
`fileHash + extractExt(fileName)` designate an entry of the upload directory
at which nothing exists (so it is not the staging directory itself).  Then
`/merge` with that `S` answers success, the final artifact holds exactly `B`
and the staging directory is gone. -/
theorem merge_round_trip (fs : FS) (fileHash fileName hash d a : String) (S : Nat)
    (B : Bytes) (es : List (String × Bytes))
    (hS : 0 < S) (hB : B ≠ []) (hlen : B.length < 2 ^ 53) (hhash : '-' ∉ hash.data)
    (hperm : es.Perm (stagedEntries hash (splitChunks S B)))
    (hnames : ∀ e ∈ es, isEntryName e.1 = true)
    (hd : resolve fileHash = .entry d) (hdir : fs d = some (.dir es))
    (ha : resolve (fileHash ++ extractExt fileName) = .entry a) (hA : fs a = none) :
    (merge fs fileHash fileName S).1 = some mergeOk ∧
    (merge fs fileHash fileName S).2 a = some (.file B) ∧
    (merge fs fileHash fileName S).2 d = none := by
  obtain ⟨hflat, hsplit⟩ := splitChunksFuel_spec S hS B.length B (Nat.le_refl _)
  have hsplit' : isSplit S (splitChunks S B) := hsplit hB
  have hflat' : (splitChunks S B).flatten = B := hflat
  obtain ⟨l, hl, hmap⟩ := exists_perm_of_perm_map
    (fun p : Nat × Bytes => (chunkName hash p.1, p.2)) (splitChunks S B).enum es hperm
  have hne : a ≠ d := by
    intro e
    rw [e, hdir] at hA
    simp at hA
  have hE : existsSync fs (fileHash ++ extractExt fileName) = false := by
    simp [existsSync, existsAt, ha, hA]
  rw [merge_of_dir fs fileHash fileName d S es hE hd hdir, ha, ← hmap,
    mergeChunks_round_trip fs a d hash S (splitChunks S B) l hl hhash hsplit'
      (by rw [hflat']; exact hlen), hflat']
  refine ⟨rfl, ?_, setEntry_same _ _ _⟩
  show setEntry _ d none a = _
  rw [setEntry_other _ _ _ _ hne, setEntry_same]

theorem merge_round_trip_witness :
    0 < 2 ∧ ([1, 2, 3, 4, 5] : Bytes) ≠ [] ∧ ([1, 2, 3, 4, 5] : Bytes).length < 2 ^ 53 ∧
    '-' ∉ "h".data ∧
    [("h-2", ([5] : Bytes)), ("h-1", [3, 4]), ("h-0", [1, 2])].Perm
      (stagedEntries "h" (splitChunks 2 [1, 2, 3, 4, 5])) ∧
    (∀ e ∈ [("h-2", ([5] : Bytes)), ("h-1", [3, 4]), ("h-0", [1, 2])],
      isEntryName e.1 = true) ∧
    resolve "h" = .entry "h" ∧
    fsRev "h" = some (.dir [("h-2", [5]), ("h-1", [3, 4]), ("h-0", [1, 2])]) ∧
    resolve ("h" ++ extractExt "a.bin") = .entry "h.bin" ∧ fsRev "h.bin" = none ∧
    ((merge fsRev "h" "a.bin" 2).1 = some mergeOk ∧
    (merge fsRev "h" "a.bin" 2).2 "h.bin" = some (.file [1, 2, 3, 4, 5]) ∧
    (merge fsRev "h" "a.bin" 2).2 "h" = none) :=
  ⟨by decide, by decide, by decide, by decide, by decide, by decide, by decide, by decide,
    by decide, by decide,
    merge_round_trip fsRev "h" "a.bin" "h" "h" "h.bin" 2 [1, 2, 3, 4, 5]
      [("h-2", [5]), ("h-1", [3, 4]), ("h-0", [1, 2])]
      (by decide) (by decide) (by decide) (by decide) (by decide) (by decide) (by decide)
      (by decide) (by decide) (by decide)⟩

end FileUpload
